import Mathlib

/-!
Verification development for the qtype typing engine
(`src/typing_engine.h`, first translation unit: the header + `typing_engine.cpp`
section with classes `RandomGenerator`, `KeyboardLayout`, `TypingDynamics`,
`ImperfectionGenerator`, `TextChunker`, `TypingEngine`).

Embedding conventions:
* `QChar` is modelled by its code-unit value in `ℕ` (the Qt Unicode
  classification functions `isLetter`, `isUpper`, `isDigit`, `isSpace`,
  `toLower`, `toUpper` are modelled on their ASCII/Latin-1 restriction);
  the null `QChar()` is the value `0`.
* `QString` is `List ℕ`.
* C++ `double` values are modelled as `ℚ`; decimal literals are read exactly.
* Every call to `QRandomGenerator` (via `RandomGenerator::uniform/normal/
  gamma/range`) is modelled by an explicit oracle argument: `range` receives a
  natural draw that is reduced into the requested interval exactly as
  `bounded(min, max+1)` does, while `uniform`, `normal` and `gamma` results
  are passed in directly as unconstrained rationals.
* `std::sin` is modelled by an explicit function argument `sinq : ℚ → ℚ`.
* The three session pointers of `TypingEngine` (`chunker_`, `dynamics_`,
  `imperfectionGen_`) are always null or non-null together (they are only
  assigned in `setText`), so they are modelled as one `Option` of a triple.
-/

set_option maxRecDepth 8000


/-- `QChar::isUpper`, restricted to ASCII. -/
def qIsUpper (c : ℕ) : Bool := decide (65 ≤ c ∧ c ≤ 90)

/-- ASCII lowercase test (used to model case restoration). -/
def qIsLower (c : ℕ) : Bool := decide (97 ≤ c ∧ c ≤ 122)

/-- `QChar::isLetter` (`KeyboardLayout::isLetter`), restricted to ASCII. -/
def qIsLetter (c : ℕ) : Bool := qIsUpper c || qIsLower c

/-- `QChar::isDigit`, restricted to ASCII. -/
def qIsDigit (c : ℕ) : Bool := decide (48 ≤ c ∧ c ≤ 57)

/-- `QChar::isSpace`, restricted to Latin-1: space, the ASCII control
whitespace 0x09–0x0D, NEL (0x85) and no-break space (0xA0). -/
def qIsSpace (c : ℕ) : Bool :=
  decide (c = 32 ∨ (9 ≤ c ∧ c ≤ 13) ∨ c = 133 ∨ c = 160)

/-- `QChar::toLower`, restricted to ASCII. -/
def qToLower (c : ℕ) : ℕ := if qIsUpper c then c + 32 else c

/-- `QChar::toUpper`, restricted to ASCII. -/
def qToUpper (c : ℕ) : ℕ := if qIsLower c then c - 32 else c

/-- Code-unit list of an ASCII string (helper for transcribing the source's
string constants). -/
def str2codes (s : String) : List ℕ := s.toList.map Char.toNat

/-- `qBound(lo, v, hi) = qMax(lo, qMin(hi, v))`. -/
def qBound (lo v hi : ℤ) : ℤ := max lo (min hi v)

/-- C++ `int(d)` conversion of a `double`: truncation toward zero. -/
def ratTrunc (q : ℚ) : ℤ := Int.tdiv q.num q.den

/-- `RandomGenerator::range(min, max)`: swaps the bounds if needed and then
draws uniformly from the inclusive interval via
`QRandomGenerator::global()->bounded(min, max+1)`.  The draw is an oracle
natural reduced modulo the interval width. -/
def rgRange (lo hi : ℤ) (draw : ℕ) : ℤ :=
  let a := min lo hi
  let b := max lo hi
  a + (draw : ℤ) % (b - a + 1)

/-- `INT_MAX`, the sentinel used to disable imperfection scheduling. -/
def intMax : ℤ := 2147483647

-- ============================================================================
-- KeyboardLayout
-- ============================================================================

/-- Row 0 of `KeyboardLayout::rows`. -/
def kbRow0 : List ℕ := str2codes "qwertyuiop"

/-- Row 1 of `KeyboardLayout::rows`. -/
def kbRow1 : List ℕ := str2codes "asdfghjkl"

/-- Row 2 of `KeyboardLayout::rows`. -/
def kbRow2 : List ℕ := str2codes "zxcvbnm"

/-- Row lookup by (possibly out-of-range) row number, as used by the
`addIfValid` lambda after its `0 ≤ r < 3` guard. -/
def kbRow (r : ℤ) : List ℕ :=
  if r = 0 then kbRow0 else if r = 1 then kbRow1 else if r = 2 then kbRow2 else []

/-- The row/column search loop of `KeyboardLayout::getNeighborKey`
(`rows[r].indexOf(lower)`, first hit wins). -/
def findRowCol (lower : ℕ) : Option (ℕ × ℕ) :=
  if kbRow0.contains lower then some (0, kbRow0.indexOf lower)
  else if kbRow1.contains lower then some (1, kbRow1.indexOf lower)
  else if kbRow2.contains lower then some (2, kbRow2.indexOf lower)
  else none

/-- The `addIfValid` lambda of `getNeighborKey`: append the key at `(r, col)`
to the candidate list unless out of range or already present. -/
def addIfValid (cands : List ℕ) (r col : ℤ) : List ℕ :=
  if r < 0 ∨ 3 ≤ r then cands
  else
    let row := kbRow r
    if col < 0 ∨ (row.length : ℤ) ≤ col then cands
    else
      let ch := row.getD col.toNat 0
      if cands.contains ch then cands else cands ++ [ch]

/-- The eight `addIfValid` calls of `getNeighborKey`, in source order. -/
def candidatesFor (rowIndex colIndex : ℕ) : List ℕ :=
  let r : ℤ := rowIndex
  let c : ℤ := colIndex
  addIfValid (addIfValid (addIfValid (addIfValid (addIfValid (addIfValid
    (addIfValid (addIfValid [] r (c - 1)) r (c + 1)) (r - 1) c) (r + 1) c)
    (r - 1) (c - 1)) (r - 1) (c + 1)) (r + 1) (c - 1)) (r + 1) (c + 1)

/-- Candidate list of a (lower-case) key, as computed by `getNeighborKey`'s
search followed by the eight `addIfValid` calls. -/
def candidatesOf (lower : ℕ) : List ℕ :=
  match findRowCol lower with
  | none => []
  | some p => candidatesFor p.1 p.2

/-- `KeyboardLayout::getNeighborKey`: pick a physically adjacent key of the
lower-cased input uniformly among the deduplicated candidates, restoring the
original case; characters absent from the table are returned unchanged. -/
def getNeighborKey (c : ℕ) (draw : ℕ) : ℕ :=
  let upper := qIsUpper c
  let lower := qToLower c
  match findRowCol lower with
  | none => c
  | some p =>
    let cands := candidatesFor p.1 p.2
    if cands.isEmpty then c
    else
      let out := cands.getD (rgRange 0 ((cands.length : ℤ) - 1) draw).toNat 0
      if upper then qToUpper out else out

-- ============================================================================
-- TextChunker
-- ============================================================================

/-- The punctuation set of `TextChunker::nextChunk`, i.e. the characters of
the C++ string constant `punct` as code units:
`* - # `` _ [ ] ( ) { } < > ! ~ + | " ' . , : ; / ? \`. -/
def chunkerPunct : List ℕ :=
  [42, 45, 35, 96, 95, 91, 93, 40, 41, 123, 125,
   60, 62, 33, 126, 43, 124, 34, 39, 46, 44, 58, 59, 47, 63, 92]

/-- The state of a `TextChunker`: the stored text and the cursor. -/
structure TextChunker where
  text : List ℕ
  currentIndex : ℕ

/-- `TextChunker::hasMore`. -/
def TextChunker.hasMore (tc : TextChunker) : Bool :=
  decide (tc.currentIndex < tc.text.length)

/-- The word-accumulation loop of `TextChunker::nextChunk`
(`while (currentIndex < length && limit--)`), returning the accumulated
chunk and the final cursor. -/
def chunkWordLoop (text : List ℕ) (i : ℕ) (limit : ℕ) : List ℕ × ℕ :=
  match limit with
  | 0 => ([], i)
  | limit' + 1 =>
    if h : i < text.length then
      let ch := text.get ⟨i, h⟩
      if ch = 10 ∨ ch = 9 then ([], i)
      else if chunkerPunct.contains ch then ([], i)
      else if qIsSpace ch then ([], i)
      else
        let r := chunkWordLoop text (i + 1) limit'
        (ch :: r.1, r.2)
    else ([], i)

/-- `TextChunker::nextChunk`: emits a single newline/tab, punctuation or
whitespace character, or a word run of at most 12 characters, advancing the
cursor.  Returns the chunk and the updated chunker. -/
def TextChunker.nextChunk (tc : TextChunker) : List ℕ × TextChunker :=
  if h : tc.currentIndex < tc.text.length then
    let ch := tc.text.get ⟨tc.currentIndex, h⟩
    if ch = 10 ∨ ch = 9 then ([ch], ⟨tc.text, tc.currentIndex + 1⟩)
    else if chunkerPunct.contains ch then ([ch], ⟨tc.text, tc.currentIndex + 1⟩)
    else if qIsSpace ch then ([ch], ⟨tc.text, tc.currentIndex + 1⟩)
    else
      let r := chunkWordLoop tc.text tc.currentIndex 12
      (r.1, ⟨tc.text, r.2⟩)
  else ([], tc)

/-- `TextChunker::progressPercent`: 100 on empty text, else
`currentIndex*100/length` in integer division. -/
def TextChunker.progressPercent (tc : TextChunker) : ℕ :=
  if tc.text.length = 0 then 100 else tc.currentIndex * 100 / tc.text.length

/-- The chunk-pulling loop of the external driver: call
`TextChunker::nextChunk` while `hasMore()` and collect the chunks in order,
returning them with the final chunker state.  `fuel` bounds the iteration;
`text.length` is always enough fuel because the cursor strictly advances. -/
def runChunksFuel : ℕ → TextChunker → List (List ℕ) × TextChunker
  | 0, tc => ([], tc)
  | n + 1, tc =>
    if tc.hasMore then
      let p := tc.nextChunk
      let r := runChunksFuel n p.2
      (p.1 :: r.1, r.2)
    else ([], tc)

/-- All chunks of a text, pulled until `hasMore()` is false. -/
def runChunks (tc : TextChunker) : List (List ℕ) × TextChunker :=
  runChunksFuel tc.text.length tc

-- ============================================================================
-- TypingDynamics
-- ============================================================================

/-- `TimingProfile` (the four presets only vary these values). -/
structure TimingProfile where
  baseSpeedFactor : ℚ := 1
  microStutterProb : ℚ := 1/10
  idlePauseProb : ℚ := 9/1000
  burstProb : ℚ := 14/100
  burstMin : ℤ := 2
  burstMax : ℤ := 6
  gammaShape : ℚ := 2
  gammaScale : ℚ := 1
  noiseLevel : ℚ := 15/100

/-- `TimingProfile::humanAdvanced()`. -/
def TimingProfile.humanAdvanced : TimingProfile :=
  ⟨1, 1/10, 9/1000, 14/100, 2, 6, 2, 1, 15/100⟩

/-- `DelayRange`. -/
structure DelayRange where
  minMs : ℤ := 80
  maxMs : ℤ := 180

/-- The constant `6.28318530718` used to seed `rhythmPhase_`. -/
def twoPiLit : ℚ := 628318530718 / 100000000000

/-- State of a `TypingDynamics` object (profile and delay range are stored
by value in the C++ object and are part of the state). -/
structure TypingDynamics where
  profile : TimingProfile
  delays : DelayRange
  previousChar : ℕ
  rhythmPhase : ℚ
  fatigueFactor : ℚ
  burstRemaining : ℤ
  totalCharsTyped : ℕ

/-- The `TypingDynamics` constructor; `u` is the `uniform()` draw seeding
the rhythm phase. -/
def TypingDynamics.init (p : TimingProfile) (dl : DelayRange) (u : ℚ) :
    TypingDynamics :=
  ⟨p, dl, 0, u * twoPiLit, 1, 0, 0⟩

/-- `TypingDynamics::reset`: clears the typing state and redraws the rhythm
phase, leaving profile and delay range untouched. -/
def TypingDynamics.reset (s : TypingDynamics) (u : ℚ) : TypingDynamics :=
  { s with previousChar := 0, rhythmPhase := u * twoPiLit, fatigueFactor := 1,
           burstRemaining := 0, totalCharsTyped := 0 }

/-- `TypingDynamics::updateState` (the `isNewWord` parameter is unused in the
source body). -/
def TypingDynamics.updateState (s : TypingDynamics) (currentChar : ℕ)
    (_isNewWord : Bool) : TypingDynamics :=
  let total := s.totalCharsTyped + 1
  { s with previousChar := currentChar, totalCharsTyped := total,
           fatigueFactor :=
             if total % 50 = 0 then 1 + (25/100) * min 1 ((total : ℚ) / 1000)
             else s.fatigueFactor }

/-- `TypingDynamics::shouldBurst`; `u` is the `uniform()` draw and `lenDraw`
the oracle for `range(burstMin, burstMax)`. -/
def TypingDynamics.shouldBurst (s : TypingDynamics) (u : ℚ) (lenDraw : ℕ) :
    Bool × TypingDynamics :=
  if s.burstRemaining > 0 then (true, { s with burstRemaining := s.burstRemaining - 1 })
  else if u < s.profile.burstProb then
    (true, { s with burstRemaining := rgRange s.profile.burstMin s.profile.burstMax lenDraw })
  else (false, s)

/-- `TypingDynamics::shouldThinkingPause`. -/
def shouldThinkingPause (wordsSinceBreak : ℤ) (rdraw : ℕ) (u : ℚ) : Bool :=
  decide (wordsSinceBreak > rgRange 8 15 rdraw) && decide (u < 3/10)

/-- The fast-digraph list (`{"th","he","in","er","an","re","on","at","en","nd"}`)
as two-element code lists. -/
def fastDigraphs : List (List ℕ) :=
  ["th", "he", "in", "er", "an", "re", "on", "at", "en", "nd"].map str2codes

/-- The left-hand key set `"qwertasdfgzxcvb"`. -/
def leftHand : List ℕ := str2codes "qwertasdfgzxcvb"

/-- The right-hand key set `"yuiophjklnm"`. -/
def rightHand : List ℕ := str2codes "yuiophjklnm"

/-- `TypingDynamics::digraphFactor` (the q/z and p/q checks compare the raw
characters, the other checks compare lower-cased characters; 113 = q,
122 = z, 112 = p). -/
def digraphFactor (prev curr : ℕ) : ℚ :=
  if fastDigraphs.contains [qToLower prev, qToLower curr] then 75/100
  else if (prev = 113 ∧ curr = 122) ∨ (prev = 122 ∧ curr = 113) ∨
          (prev = 112 ∧ curr = 113) then 14/10
  else if (leftHand.contains (qToLower prev) ∧ leftHand.contains (qToLower curr)) ∨
          (rightHand.contains (qToLower prev) ∧ rightHand.contains (qToLower curr))
       then 108/100
  else 1

/-- The random draws consumed by one `calculateDelay` call:
`gamma(gammaShape, gammaScale)`, the sentence-end `gamma(2.0, 150)`, the
thinking-pause `gamma(3.0, 800)`, the two `uniform()` draws of the
micro-stutter step, and the `normal(0, noiseLevel)` draw. -/
structure DelayDraws where
  gammaValue : ℚ
  sentencePause : ℚ
  thinkPause : ℚ
  stutterU : ℚ
  stutterAmt : ℚ
  noise : ℚ

/-- `TypingDynamics::calculateDelay`.  `sinq` models `std::sin`; the call
mutates `rhythmPhase_` (through `rhythmicVariation`), so the updated state is
returned alongside the clamped integer delay.  Character codes: 10 = newline,
46/33/63 = `.`/`!`/`?`. -/
def TypingDynamics.calculateDelay (s : TypingDynamics) (sinq : ℚ → ℚ) (ch : ℕ)
    (isSentenceEnd isBurst isThinkingPause : Bool) (d : DelayDraws) :
    ℤ × TypingDynamics :=
  let range : ℚ := ((s.delays.maxMs - s.delays.minMs : ℤ) : ℚ)
  let normalized : ℚ := min (d.gammaValue / 6) 1
  let delay0 : ℚ := ((s.delays.minMs : ℤ) : ℚ) + range * normalized
  let newPhase : ℚ := s.rhythmPhase + 3/100
  let rhythm : ℚ := sinq newPhase * (1/2) + 1/2
  let delay1 : ℚ := delay0 * (85/100 + rhythm * (3/10))
  let delay2 : ℚ := if qIsDigit ch then delay1 * (105/100) else delay1
  let delay3 : ℚ := if qIsSpace ch then delay2 * (112/100) else delay2
  let delay4 : ℚ := if ch = 10 then delay3 * (15/10) else delay3
  let delay5 : ℚ := if ch = 46 ∨ ch = 33 ∨ ch = 63 then delay4 * (14/10) else delay4
  let delay6 : ℚ := if s.previousChar ≠ 0 then delay5 * digraphFactor s.previousChar ch
                    else delay5
  let delay7 : ℚ := if isSentenceEnd then delay6 + d.sentencePause else delay6
  let delay8 : ℚ := if isThinkingPause then delay7 + d.thinkPause else delay7
  let delay9 : ℚ := if d.stutterU < s.profile.microStutterProb then
                      delay8 * (13/10 + d.stutterAmt * (4/10))
                    else delay8
  let delay10 : ℚ := if isBurst then delay9 * (65/100) else delay9
  let delay11 : ℚ := delay10 * s.fatigueFactor
  let delay12 : ℚ := delay11 * (1 + d.noise)
  (qBound 15 (ratTrunc delay12) 8000, { s with rhythmPhase := newPhase })

/-- The random draws consumed by one `generateHoldTime` call:
`gamma(2.5, 20.0)` and the `uniform()` draw. -/
structure HoldDraws where
  gammaValue : ℚ
  uniformValue : ℚ

/-- `TypingDynamics::generateHoldTime`. -/
def generateHoldTime (ch : ℕ) (d : HoldDraws) : ℤ :=
  let hold0 : ℚ := d.gammaValue
  let hold1 : ℚ := if qIsUpper ch then hold0 * (12/10) else hold0
  qBound 40 (ratTrunc (hold1 * (9/10 + d.uniformValue * (2/10)))) 180

-- ============================================================================
-- ImperfectionGenerator
-- ============================================================================

/-- `ImperfectionSettings`. -/
structure ImperfectionSettings where
  enableTypos : Bool := true
  typoMin : ℤ := 300
  typoMax : ℤ := 500
  enableDoubleKeys : Bool := true
  doubleMin : ℤ := 250
  doubleMax : ℤ := 400
  enableAutoCorrection : Bool := true
  correctionProbability : ℤ := 15

/-- `ImperfectionResult`. -/
structure ImperfectionResult where
  character : ℕ
  shouldDouble : Bool := false
  shouldCorrect : Bool := false

/-- State of an `ImperfectionGenerator` (settings are stored by value). -/
structure ImperfectionGenerator where
  settings : ImperfectionSettings
  charsTypedTotal : ℤ
  charsSinceLastTypo : ℤ
  charsSinceLastDouble : ℤ
  nextTypoAt : ℤ
  nextDoubleAt : ℤ

/-- The value assigned by `scheduleNextTypo` (a fresh `range(typoMin, typoMax)`
draw, or `INT_MAX` when typos are disabled). -/
def scheduleTypoVal (st : ImperfectionSettings) (draw : ℕ) : ℤ :=
  if st.enableTypos then rgRange st.typoMin st.typoMax draw else intMax

/-- The value assigned by `scheduleNextDouble`. -/
def scheduleDoubleVal (st : ImperfectionSettings) (draw : ℕ) : ℤ :=
  if st.enableDoubleKeys then rgRange st.doubleMin st.doubleMax draw else intMax

/-- `ImperfectionGenerator::reset`: zero all counters and redraw both
next-trigger thresholds. -/
def ImperfectionGenerator.reset (g : ImperfectionGenerator) (d1 d2 : ℕ) :
    ImperfectionGenerator :=
  { g with charsTypedTotal := 0, charsSinceLastTypo := 0, charsSinceLastDouble := 0,
           nextTypoAt := scheduleTypoVal g.settings d1,
           nextDoubleAt := scheduleDoubleVal g.settings d2 }

/-- The `ImperfectionGenerator` constructor (fields zeroed, then `reset()`). -/
def ImperfectionGenerator.init (st : ImperfectionSettings) (d1 d2 : ℕ) :
    ImperfectionGenerator :=
  ImperfectionGenerator.reset ⟨st, 0, 0, 0, intMax, intMax⟩ d1 d2

/-- The random draws consumed by one `processCharacter` call: the
`getNeighborKey` pick, the fresh typo schedule, the `range(0,99)` correction
draw, and the fresh double schedule. -/
structure ImpDraws where
  neighborDraw : ℕ
  typoSchedDraw : ℕ
  corrDraw : ℕ
  doubleSchedDraw : ℕ

/-- `ImperfectionGenerator::processCharacter`. -/
def ImperfectionGenerator.processCharacter (g : ImperfectionGenerator)
    (original : ℕ) (d : ImpDraws) : ImperfectionResult × ImperfectionGenerator :=
  let g1 := { g with charsTypedTotal := g.charsTypedTotal + 1,
                     charsSinceLastTypo := g.charsSinceLastTypo + 1,
                     charsSinceLastDouble := g.charsSinceLastDouble + 1 }
  let step2 : ImperfectionResult × ImperfectionGenerator :=
    if g1.charsSinceLastTypo ≥ g1.nextTypoAt ∧ qIsLetter original then
      ({ character := getNeighborKey original d.neighborDraw,
         shouldCorrect := g1.settings.enableAutoCorrection &&
           decide (rgRange 0 99 d.corrDraw < g1.settings.correctionProbability) },
       { g1 with charsSinceLastTypo := 0,
                 nextTypoAt := scheduleTypoVal g1.settings d.typoSchedDraw })
    else ({ character := original }, g1)
  let g2 := step2.2
  if g2.charsSinceLastDouble ≥ g2.nextDoubleAt ∧ ¬ qIsSpace original then
    ({ step2.1 with shouldDouble := true },
     { g2 with charsSinceLastDouble := 0,
               nextDoubleAt := scheduleDoubleVal g2.settings d.doubleSchedDraw })
  else (step2.1, g2)

/-- Fold `processCharacter` over a character list, drawing per-position
oracles from `ds`, collecting the results. -/
def processAll (g : ImperfectionGenerator) (cs : List ℕ) (ds : ℕ → ImpDraws)
    (i : ℕ) : List ImperfectionResult × ImperfectionGenerator :=
  match cs with
  | [] => ([], g)
  | c :: rest =>
    let p := g.processCharacter c (ds i)
    let r := processAll p.2 rest ds (i + 1)
    (p.1 :: r.1, r.2)

-- ============================================================================
-- TypingEngine
-- ============================================================================

/-- One keystroke observed by the `IKeyboardSimulator` sink:
`typeCharacter(c, holdTimeMs)` or `pressBackspace()`. -/
inductive SinkEvent where
  | key : ℕ → ℤ → SinkEvent
  | backspace : SinkEvent
deriving DecidableEq, Repr

/-- The random draws consumed per character inside `typeNextChunk`'s loop
(the `msleep` pauses of the double/correction protocols consume `range`
draws but produce no sink events; they are omitted). -/
structure CharDraws where
  imp : ImpDraws
  hold : HoldDraws
  doubleHold : HoldDraws
  corrHold : HoldDraws

/-- The random draws consumed by one `typeNextChunk` call. -/
structure ChunkDraws where
  perChar : ℕ → CharDraws
  burstU : ℚ
  burstLen : ℕ
  thinkRange : ℕ
  thinkU : ℚ
  delay : DelayDraws

/-- State of a `TypingEngine`.  The session triple models the three pointers
`chunker_`, `dynamics_`, `imperfectionGen_`, which are null together before
`setText` and non-null together afterwards. -/
structure TypingEngine where
  profile : TimingProfile
  delays : DelayRange
  imperfections : ImperfectionSettings
  session : Option (TextChunker × TypingDynamics × ImperfectionGenerator)
  wordsSinceBreak : ℤ

/-- The `TypingEngine` constructor: stores the configuration, all session
pointers null, `wordsSinceBreak_ = 0`. -/
def TypingEngine.new (p : TimingProfile) (dl : DelayRange)
    (imp : ImperfectionSettings) : TypingEngine :=
  ⟨p, dl, imp, none, 0⟩

/-- `TypingEngine::setText`: rebuilds chunker, dynamics and imperfection
generator from the stored configuration. -/
def TypingEngine.setText (e : TypingEngine) (text : List ℕ) (phaseDraw : ℚ)
    (d1 d2 : ℕ) : TypingEngine :=
  { e with session := some (⟨text, 0⟩, TypingDynamics.init e.profile e.delays phaseDraw,
                            ImperfectionGenerator.init e.imperfections d1 d2),
           wordsSinceBreak := 0 }

/-- `TypingEngine::hasMoreToType`: `chunker_ && chunker_->hasMore()`. -/
def TypingEngine.hasMoreToType (e : TypingEngine) : Bool :=
  match e.session with
  | none => false
  | some s => s.1.hasMore

/-- `TypingEngine::progressPercent`: `chunker_ ? chunker_->progressPercent() : 0`. -/
def TypingEngine.progressPercent (e : TypingEngine) : ℕ :=
  match e.session with
  | none => 0
  | some s => s.1.progressPercent

/-- `TypingEngine::reset`: resets dynamics and imperfection generator (when
present) and zeroes the word-break counter; the chunker is untouched. -/
def TypingEngine.reset (e : TypingEngine) (phaseDraw : ℚ) (d1 d2 : ℕ) :
    TypingEngine :=
  { e with session := e.session.map
             (fun s => (s.1, s.2.1.reset phaseDraw, s.2.2.reset d1 d2)),
           wordsSinceBreak := 0 }

/-- The per-character loop of `TypingEngine::typeNextChunk`: imperfections,
hold times, sink emissions (including the double-key and self-correction
protocols), word counting and dynamics update.  Returns the emitted events
and the threaded generator/dynamics/word-counter state. -/
def typeChars (ds : ℕ → CharDraws) :
    List ℕ → ℕ → ImperfectionGenerator → TypingDynamics → ℤ →
    List SinkEvent × ImperfectionGenerator × TypingDynamics × ℤ
  | [], _, ig, dyn, words => ([], ig, dyn, words)
  | c :: rest, i, ig, dyn, words =>
    let dd := ds i
    let pr := ig.processCharacter c dd.imp
    let result := pr.1
    let holdTime := generateHoldTime result.character dd.hold
    let evs1 := [SinkEvent.key result.character holdTime]
    let evs2 := if result.shouldDouble then
                  evs1 ++ [SinkEvent.key result.character
                             (generateHoldTime result.character dd.doubleHold)]
                else evs1
    let evs3 := if result.shouldCorrect then
                  evs2 ++ [SinkEvent.backspace,
                           SinkEvent.key c (generateHoldTime c dd.corrHold)]
                else evs2
    let isNewWord := qIsSpace c
    let words1 := if isNewWord then words + 1 else words
    let dyn1 := dyn.updateState c isNewWord
    let r := typeChars ds rest (i + 1) pr.2 dyn1 words1
    (evs3 ++ r.1, r.2.1, r.2.2.1, r.2.2.2)

/-- `TypingEngine::typeNextChunk`: returns the delay until the next call,
the sink events emitted, and the updated engine.  Returns `(0, [], e)` when
there is nothing to type. -/
def TypingEngine.typeNextChunk (e : TypingEngine) (sinq : ℚ → ℚ)
    (d : ChunkDraws) : ℤ × List SinkEvent × TypingEngine :=
  match e.session with
  | none => (0, [], e)
  | some s =>
    if s.1.hasMore = false then (0, [], e)
    else
      let nc := s.1.nextChunk
      if nc.1 = [] then (0, [], { e with session := some (nc.2, s.2.1, s.2.2) })
      else
        let tr := typeChars d.perChar nc.1 0 s.2.2 s.2.1 e.wordsSinceBreak
        let lastChar := nc.1.getLastD 0
        let isSentenceEnd : Bool := lastChar == 46 || lastChar == 33 || lastChar == 63
        let sb := tr.2.2.1.shouldBurst d.burstU d.burstLen
        let isThink := shouldThinkingPause tr.2.2.2 d.thinkRange d.thinkU
        let words2 : ℤ := if isThink then 0 else tr.2.2.2
        let cd := sb.2.calculateDelay sinq lastChar isSentenceEnd sb.1 isThink d.delay
        (cd.1, tr.1, { e with session := some (nc.2, cd.2, tr.2.1),
                              wordsSinceBreak := words2 })

-- ============================================================================
-- Spec-side variant for the digraph claim (C4)
-- ============================================================================

/-- Variant of `calculateDelay` written from the spec's words for the digraph
step: the digraph factor is applied only when the emitted chunk is a single
character (`chunkLen = 1`); all other steps are as in the source.  Used to
exhibit the divergence of the source from claim C4. -/
def calculateDelaySpecSingleOnly (s : TypingDynamics) (sinq : ℚ → ℚ)
    (chunkLen : ℕ) (ch : ℕ) (isSentenceEnd isBurst isThinkingPause : Bool)
    (d : DelayDraws) : ℤ :=
  let range : ℚ := ((s.delays.maxMs - s.delays.minMs : ℤ) : ℚ)
  let normalized : ℚ := min (d.gammaValue / 6) 1
  let delay0 : ℚ := ((s.delays.minMs : ℤ) : ℚ) + range * normalized
  let newPhase : ℚ := s.rhythmPhase + 3/100
  let rhythm : ℚ := sinq newPhase * (1/2) + 1/2
  let delay1 : ℚ := delay0 * (85/100 + rhythm * (3/10))
  let delay2 : ℚ := if qIsDigit ch then delay1 * (105/100) else delay1
  let delay3 : ℚ := if qIsSpace ch then delay2 * (112/100) else delay2
  let delay4 : ℚ := if ch = 10 then delay3 * (15/10) else delay3
  let delay5 : ℚ := if ch = 46 ∨ ch = 33 ∨ ch = 63 then delay4 * (14/10) else delay4
  let delay6 : ℚ := if s.previousChar ≠ 0 ∧ chunkLen = 1 then
                      delay5 * digraphFactor s.previousChar ch
                    else delay5
  let delay7 : ℚ := if isSentenceEnd then delay6 + d.sentencePause else delay6
  let delay8 : ℚ := if isThinkingPause then delay7 + d.thinkPause else delay7
  let delay9 : ℚ := if d.stutterU < s.profile.microStutterProb then
                      delay8 * (13/10 + d.stutterAmt * (4/10))
                    else delay8
  let delay10 : ℚ := if isBurst then delay9 * (65/100) else delay9
  let delay11 : ℚ := delay10 * s.fatigueFactor
  let delay12 : ℚ := delay11 * (1 + d.noise)
  qBound 15 (ratTrunc delay12) 8000

/-- Neutral random draws for the C4 evaluation: the gamma draw is 0, no
micro-stutter (`stutterU = 1 ≥ microStutterProb`), no burst (`burstU = 1`),
no noise. -/
def c4DelayDraws : DelayDraws := ⟨0, 0, 0, 1, 0, 0⟩

/-- Per-character draws for the C4 evaluation (all hold gammas 0). -/
def c4CharDraws : CharDraws := ⟨⟨0, 0, 0, 0⟩, ⟨0, 0⟩, ⟨0, 0⟩, ⟨0, 0⟩⟩

/-- Chunk draws for the C4 evaluation. -/
def c4ChunkDraws : ChunkDraws := ⟨fun _ => c4CharDraws, 1, 0, 0, 1, c4DelayDraws⟩

/-- The sine model used for the C4 evaluation (constantly 1). -/
def sinqOne : ℚ → ℚ := fun _ => 1

/-- Imperfection settings with typos and double keys disabled. -/
def impDisabled : ImperfectionSettings :=
  ⟨false, 300, 500, false, 250, 400, true, 15⟩

/-- The engine used for the C4 evaluation: default profile, delay range
fixed at 1000 ms, imperfections off, text `"ab"` (codes 97, 98). -/
def c4Engine : TypingEngine :=
  (TypingEngine.new TimingProfile.humanAdvanced ⟨1000, 1000⟩ impDisabled).setText
    [97, 98] 0 0 0

/-- The dynamics state reached inside `typeNextChunk` on `c4Engine` right
before `calculateDelay`: both characters processed (`previousChar = 98`,
`totalCharsTyped = 2`), burst state unchanged. -/
def c4DynAtDelay : TypingDynamics :=
  ⟨TimingProfile.humanAdvanced, ⟨1000, 1000⟩, 98, 0, 1, 0, 2⟩

/-- Iterated `updateState` from a fresh `TypingDynamics`, with arbitrary
characters `cs` and word flags `ws` per step. -/
def updSeq (p : TimingProfile) (dl : DelayRange) (u : ℚ) (cs : ℕ → ℕ)
    (ws : ℕ → Bool) : ℕ → TypingDynamics
  | 0 => TypingDynamics.init p dl u
  | n + 1 => (updSeq p dl u cs ws n).updateState (cs n) (ws n)

-- chunker lemmas ---------------------------------------------------------

theorem chunkWordLoop_le (text : List ℕ) :
    ∀ (limit i : ℕ), i ≤ (chunkWordLoop text i limit).2 := by
  intro limit
  induction limit with
  | zero => intro i; simp [chunkWordLoop]
  | succ n ih =>
    intro i
    simp only [chunkWordLoop]
    split
    · split
      · simp
      · split
        · simp
        · split
          · simp
          · simpa using Nat.le_trans (Nat.le_succ i) (ih (i + 1))
    · simp

theorem chunkWordLoop_le_len (text : List ℕ) :
    ∀ (limit i : ℕ), i ≤ text.length → (chunkWordLoop text i limit).2 ≤ text.length := by
  intro limit
  induction limit with
  | zero => intro i hi; simpa [chunkWordLoop] using hi
  | succ n ih =>
    intro i hi
    simp only [chunkWordLoop]
    split
    · split
      · simpa using hi
      · split
        · simpa using hi
        · split
          · simpa using hi
          · simpa using ih (i + 1) (by omega)
    · simpa using hi

theorem chunkWordLoop_recon (text : List ℕ) :
    ∀ (limit i : ℕ),
      (chunkWordLoop text i limit).1 ++ text.drop (chunkWordLoop text i limit).2 =
        text.drop i := by
  intro limit
  induction limit with
  | zero => intro i; simp [chunkWordLoop]
  | succ n ih =>
    intro i
    simp only [chunkWordLoop]
    split
    · next h =>
      split
      · simp
      · split
        · simp
        · split
          · simp
          · have hd : text.drop i = text.get ⟨i, h⟩ :: text.drop (i + 1) := by
              rw [List.drop_eq_getElem_cons h]
              simp [List.get_eq_getElem]
            simp only [List.cons_append]
            rw [ih (i + 1), hd]
    · simp

theorem nextChunk_text (tc : TextChunker) : (tc.nextChunk).2.text = tc.text := by
  simp only [TextChunker.nextChunk]
  split
  · split
    · rfl
    · split
      · rfl
      · split
        · rfl
        · rfl
  · rfl

theorem nextChunk_index_le (tc : TextChunker) :
    tc.currentIndex ≤ (tc.nextChunk).2.currentIndex := by
  simp only [TextChunker.nextChunk]
  split
  · split
    · simp
    · split
      · simp
      · split
        · simp
        · simpa using chunkWordLoop_le tc.text 12 tc.currentIndex
  · simp

theorem chunkWordLoop_succ_lt (text : List ℕ) (limit i : ℕ) (h : i < text.length)
    (h10 : ¬(text.get ⟨i, h⟩ = 10 ∨ text.get ⟨i, h⟩ = 9))
    (hp : ¬(chunkerPunct.contains (text.get ⟨i, h⟩) = true))
    (hs : ¬(qIsSpace (text.get ⟨i, h⟩) = true)) :
    i < (chunkWordLoop text i (limit + 1)).2 := by
  simp only [chunkWordLoop]
  rw [dif_pos h, if_neg h10, if_neg hp, if_neg hs]
  have := chunkWordLoop_le text limit (i + 1)
  simp only []
  omega

theorem nextChunk_index_lt (tc : TextChunker) (h : tc.hasMore = true) :
    tc.currentIndex < (tc.nextChunk).2.currentIndex := by
  have hlt : tc.currentIndex < tc.text.length := by
    simpa [TextChunker.hasMore] using h
  simp only [TextChunker.nextChunk]
  split
  · split
    · simp
    · split
      · simp
      · split
        · simp
        · next h10 hpunct hsp =>
          show tc.currentIndex < (chunkWordLoop tc.text tc.currentIndex 12).2
          exact chunkWordLoop_succ_lt tc.text 11 tc.currentIndex ‹_› h10 hpunct hsp
  · omega

theorem nextChunk_index_le_len (tc : TextChunker) (h : tc.currentIndex ≤ tc.text.length) :
    (tc.nextChunk).2.currentIndex ≤ tc.text.length := by
  simp only [TextChunker.nextChunk]
  split
  · next hlt =>
    split
    · simpa using hlt
    · split
      · simpa using hlt
      · split
        · simpa using hlt
        · simpa using chunkWordLoop_le_len tc.text 12 tc.currentIndex h
  · simpa using h

theorem nextChunk_recon (tc : TextChunker) :
    (tc.nextChunk).1 ++ tc.text.drop (tc.nextChunk).2.currentIndex =
      tc.text.drop tc.currentIndex := by
  simp only [TextChunker.nextChunk]
  split
  · next h =>
    have hd : tc.text.drop tc.currentIndex =
        tc.text.get ⟨tc.currentIndex, h⟩ :: tc.text.drop (tc.currentIndex + 1) := by
      rw [List.drop_eq_getElem_cons h]
      simp [List.get_eq_getElem]
    split
    · simpa using hd.symm
    · split
      · simpa using hd.symm
      · split
        · simpa using hd.symm
        · simpa using chunkWordLoop_recon tc.text 12 tc.currentIndex
  · simp

theorem runChunksFuel_spec (n : ℕ) :
    ∀ tc : TextChunker, tc.currentIndex ≤ tc.text.length →
      tc.text.length - tc.currentIndex ≤ n →
      (runChunksFuel n tc).1.flatten = tc.text.drop tc.currentIndex ∧
      (runChunksFuel n tc).2.hasMore = false := by
  induction n with
  | zero =>
    intro tc hle h
    have hnil : tc.text.drop tc.currentIndex = ([] : List ℕ) :=
      List.drop_eq_nil_of_le (by omega)
    have hnm : tc.hasMore = false := by
      simp [TextChunker.hasMore]; omega
    exact ⟨by simp [runChunksFuel, hnil], by simp [runChunksFuel, hnm]⟩
  | succ n ih =>
    intro tc hle h
    by_cases hm : tc.hasMore = true
    · have hlt := nextChunk_index_lt tc hm
      have ht := nextChunk_text tc
      have hlen := nextChunk_index_le_len tc hle
      have hrec := ih (tc.nextChunk).2 (by rw [ht]; exact hlen) (by rw [ht]; omega)
      constructor
      · simp only [runChunksFuel, hm, if_true, List.flatten_cons]
        rw [hrec.1, ht]
        exact nextChunk_recon tc
      · simp only [runChunksFuel, hm, if_true]
        exact hrec.2
    · have hm' : tc.hasMore = false := by revert hm; cases tc.hasMore <;> simp
      have hnil : tc.text.drop tc.currentIndex = ([] : List ℕ) := by
        apply List.drop_eq_nil_of_le
        have : ¬ tc.currentIndex < tc.text.length := by
          simpa [TextChunker.hasMore] using hm'
        omega
      exact ⟨by simp [runChunksFuel, hm', hnil], by simp [runChunksFuel, hm']⟩

-- keyboard layout lemmas -------------------------------------------------

theorem list_getD_mem (l : List ℕ) (i : ℕ) (h : i < l.length) : l.getD i 0 ∈ l := by
  induction l generalizing i with
  | nil => simp at h
  | cons a t ih =>
    cases i with
    | zero => simp
    | succ n =>
      have : n < t.length := by simpa using h
      simpa using Or.inr (ih n this)

theorem rgRange_bounds (lo hi : ℤ) (draw : ℕ) (h : lo ≤ hi) :
    lo ≤ rgRange lo hi draw ∧ rgRange lo hi draw ≤ hi := by
  simp only [rgRange]
  rw [min_eq_left h, max_eq_right h]
  have e1 : 0 ≤ (draw : ℤ) % (hi - lo + 1) := Int.emod_nonneg _ (by omega)
  have e2 : (draw : ℤ) % (hi - lo + 1) < hi - lo + 1 := Int.emod_lt_of_pos _ (by omega)
  omega

theorem rgRange_same (k : ℤ) (draw : ℕ) : rgRange k k draw = k := by
  simp [rgRange]

theorem rgRange_toNat_lt (n : ℕ) (draw : ℕ) (h : n ≠ 0) :
    (rgRange 0 ((n : ℤ) - 1) draw).toNat < n := by
  have hb := rgRange_bounds 0 ((n : ℤ) - 1) draw (by omega)
  omega

theorem addIfValid_nodup (cands : List ℕ) (r col : ℤ) (h : cands.Nodup) :
    (addIfValid cands r col).Nodup := by
  simp only [addIfValid]
  split
  · exact h
  · split
    · exact h
    · split
      · exact h
      · next hc =>
        rw [List.nodup_append]
        refine ⟨h, List.nodup_singleton _, ?_⟩
        intro a ha hb
        simp only [List.mem_singleton] at hb
        subst hb
        exact hc (by simpa using ha)

theorem addIfValid_len (cands : List ℕ) (r col : ℤ) :
    (addIfValid cands r col).length ≤ cands.length + 1 := by
  simp only [addIfValid]
  split
  · omega
  · split
    · omega
    · split
      · omega
      · simp

theorem candidatesFor_nodup (ri ci : ℕ) : (candidatesFor ri ci).Nodup := by
  simp only [candidatesFor]
  exact addIfValid_nodup _ _ _ (addIfValid_nodup _ _ _ (addIfValid_nodup _ _ _
    (addIfValid_nodup _ _ _ (addIfValid_nodup _ _ _ (addIfValid_nodup _ _ _
      (addIfValid_nodup _ _ _ (addIfValid_nodup _ _ _ List.nodup_nil)))))))

theorem candidatesFor_len (ri ci : ℕ) : (candidatesFor ri ci).length ≤ 8 := by
  have key : ∀ (l : List ℕ) (n : ℕ), l.length ≤ n → ∀ (r col : ℤ),
      (addIfValid l r col).length ≤ n + 1 := by
    intro l n h r col
    have := addIfValid_len l r col
    omega
  simp only [candidatesFor]
  exact key _ 7 (key _ 6 (key _ 5 (key _ 4 (key _ 3 (key _ 2 (key _ 1
    (key _ 0 (by simp) _ _) _ _) _ _) _ _) _ _) _ _) _ _) _ _

theorem kbRows_range :
    (∀ x ∈ kbRow0, 97 ≤ x ∧ x ≤ 122) ∧ (∀ x ∈ kbRow1, 97 ≤ x ∧ x ≤ 122) ∧
    (∀ x ∈ kbRow2, 97 ≤ x ∧ x ≤ 122) := by
  decide

theorem findRowCol_some_range (l : ℕ) (p : ℕ × ℕ) (hp : findRowCol l = some p) :
    97 ≤ l ∧ l ≤ 122 := by
  have hmem : l ∈ kbRow0 ∨ l ∈ kbRow1 ∨ l ∈ kbRow2 := by
    by_cases h0 : l ∈ kbRow0
    · exact Or.inl h0
    · by_cases h1 : l ∈ kbRow1
      · exact Or.inr (Or.inl h1)
      · by_cases h2 : l ∈ kbRow2
        · exact Or.inr (Or.inr h2)
        · exfalso
          have : findRowCol l = none := by
            simp only [findRowCol]
            rw [if_neg, if_neg, if_neg] <;> simp [h0, h1, h2]
          rw [this] at hp
          exact Option.noConfusion hp
  rcases hmem with h | h | h
  · exact kbRows_range.1 l h
  · exact kbRows_range.2.1 l h
  · exact kbRows_range.2.2 l h

theorem table_neighbor_facts (l : ℕ) (h1 : 97 ≤ l) (h2 : l ≤ 122) :
    findRowCol l ≠ none ∧ candidatesOf l ≠ [] ∧ l ∉ candidatesOf l ∧
    ∀ x ∈ candidatesOf l, 97 ≤ x ∧ x ≤ 122 := by
  interval_cases l <;> decide

theorem candidatesOf_eq (l : ℕ) (p : ℕ × ℕ) (hp : findRowCol l = some p) :
    candidatesOf l = candidatesFor p.1 p.2 := by
  simp [candidatesOf, hp]

theorem getNeighborKey_some (c : ℕ) (draw : ℕ) (p : ℕ × ℕ)
    (hp : findRowCol (qToLower c) = some p) (hne : candidatesFor p.1 p.2 ≠ []) :
    ∃ out ∈ candidatesFor p.1 p.2,
      getNeighborKey c draw = if qIsUpper c then qToUpper out else out := by
  have hlen : (candidatesFor p.1 p.2).length ≠ 0 := by
    intro h
    exact hne (List.length_eq_zero.mp h)
  have hidx := rgRange_toNat_lt (candidatesFor p.1 p.2).length draw hlen
  refine ⟨(candidatesFor p.1 p.2).getD
    (rgRange 0 (((candidatesFor p.1 p.2).length : ℤ) - 1) draw).toNat 0,
    list_getD_mem _ _ hidx, ?_⟩
  simp only [getNeighborKey, hp]
  rw [if_neg]
  simp [List.isEmpty_iff, hne]

theorem getNeighborKey_none (c : ℕ) (draw : ℕ)
    (hp : findRowCol (qToLower c) = none) : getNeighborKey c draw = c := by
  simp [getNeighborKey, hp]

theorem getNeighborKey_ne (c : ℕ) (draw : ℕ) (h : qIsLetter c = true) :
    getNeighborKey c draw ≠ c := by
  have hlow : 97 ≤ qToLower c ∧ qToLower c ≤ 122 := by
    simp only [qIsLetter, qIsUpper, qIsLower, Bool.or_eq_true, decide_eq_true_eq] at h
    simp only [qToLower, qIsUpper]
    split
    · next hu => simp only [decide_eq_true_eq] at hu; omega
    · next hu => simp only [decide_eq_true_eq] at hu; omega
  obtain ⟨hfr, hcne, hnotmem, hrange⟩ :=
    table_neighbor_facts (qToLower c) hlow.1 hlow.2
  cases hp : findRowCol (qToLower c) with
  | none => exact absurd hp hfr
  | some p =>
    have hco := candidatesOf_eq (qToLower c) p hp
    rw [hco] at hcne hnotmem hrange
    obtain ⟨out, hout, hek⟩ := getNeighborKey_some c draw p hp hcne
    rw [hek]
    have houtr := hrange out hout
    have houtne : out ≠ qToLower c := fun he => hnotmem (he ▸ hout)
    by_cases hu : qIsUpper c = true
    · rw [if_pos hu]
      have hcu : 65 ≤ c ∧ c ≤ 90 := by
        simpa [qIsUpper, decide_eq_true_eq] using hu
      have hlc : qToLower c = c + 32 := by
        simp [qToLower, hu]
      have hup : qToUpper out = out - 32 := by
        simp [qToUpper, qIsLower, decide_eq_true_eq]
        omega
      rw [hup]
      intro he
      apply houtne
      omega
    · rw [if_neg hu]
      have hlc : qToLower c = c := by
        simp [qToLower, hu]
      rw [hlc] at houtne
      exact houtne

-- ============================================================================
-- Claim theorems
-- ============================================================================

/-- C1: for every input text, concatenating in order every chunk returned by
`TextChunker::nextChunk` (called until `hasMore()` is false) equals the
original text exactly.  The chunker never consults the imperfection settings,
so this holds in particular with typos and double-keys disabled. -/
theorem claimC1_chunk_reconstruction (text : List ℕ) :
    (runChunks ⟨text, 0⟩).1.flatten = text ∧
    (runChunks ⟨text, 0⟩).2.hasMore = false := by
  have h := runChunksFuel_spec text.length ⟨text, 0⟩ (by simp) (by simp)
  simpa [runChunks] using h

/-- C2: for every character, profile, delay range, dynamics state and random
draw, `TypingDynamics::calculateDelay` returns an integer in [15, 8000] and
`TypingDynamics::generateHoldTime` returns an integer in [40, 180]. -/
theorem claimC2_delay_and_hold_bounds :
    (∀ (s : TypingDynamics) (sinq : ℚ → ℚ) (ch : ℕ) (se ib tp : Bool)
       (d : DelayDraws),
      15 ≤ (s.calculateDelay sinq ch se ib tp d).1 ∧
      (s.calculateDelay sinq ch se ib tp d).1 ≤ 8000) ∧
    (∀ (ch : ℕ) (d : HoldDraws),
      40 ≤ generateHoldTime ch d ∧ generateHoldTime ch d ≤ 180) := by
  have hq : ∀ (lo x hi : ℤ), lo ≤ hi → lo ≤ qBound lo x hi ∧ qBound lo x hi ≤ hi := by
    intro lo x hi h
    simp only [qBound]
    omega
  constructor
  · intro s sinq ch se ib tp d
    exact hq 15 _ 8000 (by omega)
  · intro ch d
    exact hq 40 _ 180 (by omega)

/-- C9: after `TypingDynamics::reset` the fatigue factor is 1, the burst
counter is 0, the character counter is 0, the previous character is null,
while the bound profile and delay range are unchanged; after
`ImperfectionGenerator::reset` all counters are zeroed, both next-trigger
thresholds are redrawn from the schedule, and the settings are unchanged;
`TypingEngine::reset` applies both to a live session, leaves the chunker in
place, and zeroes the word-break counter. -/
theorem claimC9_reset_frame (s : TypingDynamics) (u : ℚ)
    (g : ImperfectionGenerator) (d1 d2 : ℕ) :
    (s.reset u).fatigueFactor = 1 ∧ (s.reset u).burstRemaining = 0 ∧
    (s.reset u).totalCharsTyped = 0 ∧ (s.reset u).previousChar = 0 ∧
    (s.reset u).profile = s.profile ∧ (s.reset u).delays = s.delays ∧
    (g.reset d1 d2).charsTypedTotal = 0 ∧ (g.reset d1 d2).charsSinceLastTypo = 0 ∧
    (g.reset d1 d2).charsSinceLastDouble = 0 ∧
    (g.reset d1 d2).nextTypoAt = scheduleTypoVal g.settings d1 ∧
    (g.reset d1 d2).nextDoubleAt = scheduleDoubleVal g.settings d2 ∧
    (g.reset d1 d2).settings = g.settings ∧
    (∀ (e : TypingEngine) (tc : TextChunker), e.session = some (tc, s, g) →
      (e.reset u d1 d2).session = some (tc, s.reset u, g.reset d1 d2) ∧
      (e.reset u d1 d2).wordsSinceBreak = 0 ∧
      (e.reset u d1 d2).profile = e.profile ∧
      (e.reset u d1 d2).delays = e.delays ∧
      (e.reset u d1 d2).imperfections = e.imperfections) := by
  refine ⟨rfl, rfl, rfl, rfl, rfl, rfl, rfl, rfl, rfl, rfl, rfl, rfl, ?_⟩
  intro e tc he
  exact ⟨by simp [TypingEngine.reset, he], rfl, rfl, rfl, rfl⟩

/-- Witness for C9's engine conjunct, at a live one-character session. -/
theorem claimC9_witness :
    (((TypingEngine.new TimingProfile.humanAdvanced ⟨80, 180⟩ impDisabled).setText
        (str2codes "a") 0 0 0).reset 0 0 0).wordsSinceBreak = 0 :=
  ((claimC9_reset_frame
      (TypingDynamics.init TimingProfile.humanAdvanced ⟨80, 180⟩ 0) 0
      (ImperfectionGenerator.init impDisabled 0 0) 0 0).2.2.2.2.2.2.2.2.2.2.2.2
    ((TypingEngine.new TimingProfile.humanAdvanced ⟨80, 180⟩ impDisabled).setText
        (str2codes "a") 0 0 0)
    ⟨str2codes "a", 0⟩ rfl).2.1

/-- C10: on a `TypingEngine` on which `setText` has never been called, every
operation is a safe no-op: `hasMoreToType()` is false, `typeNextChunk()`
returns 0 and emits nothing to the sink, and `progressPercent()` returns 0 —
not the 100 that an empty text would yield after `setText("")`. -/
theorem claimC10_unset_engine_noop (p : TimingProfile) (dl : DelayRange)
    (imp : ImperfectionSettings) (sinq : ℚ → ℚ) (d : ChunkDraws)
    (pd : ℚ) (d1 d2 : ℕ) :
    (TypingEngine.new p dl imp).hasMoreToType = false ∧
    (TypingEngine.new p dl imp).typeNextChunk sinq d =
      (0, [], TypingEngine.new p dl imp) ∧
    (TypingEngine.new p dl imp).progressPercent = 0 ∧
    ((TypingEngine.new p dl imp).setText [] pd d1 d2).progressPercent = 100 :=
  ⟨rfl, rfl, rfl, rfl⟩

/-- C4 (evaluation at the failing input): the source's `calculateDelay`
applies the digraph factor whenever `previousChar_` is non-null, and
`typeNextChunk` calls `updateState` on every character of the chunk before
computing the delay, so the factor is applied even for multi-character
chunks (with `prev = curr =` the chunk's last character).  On text `"ab"`
(one chunk of length 2, delay range fixed at 1000, neutral draws) the code
yields `1242 = trunc(1000 * 1.15 * 1.08)`, while the spec's
single-character-only variant yields `1150`; the claim's guard is absent
from the source. -/
theorem fastDigraphs_val : fastDigraphs =
    [[116, 104], [104, 101], [105, 110], [101, 114], [97, 110], [114, 101],
     [111, 110], [97, 116], [101, 110], [110, 100]] := by decide

theorem leftHand_val :
    leftHand = [113, 119, 101, 114, 116, 97, 115, 100, 102, 103, 122, 120, 99, 118, 98] := by
  decide

theorem rightHand_val :
    rightHand = [121, 117, 105, 111, 112, 104, 106, 107, 108, 110, 109] := by decide

set_option maxHeartbeats 2000000 in
theorem claimC4_digraph_applied_to_multichar_chunk :
    ((TextChunker.nextChunk ⟨[97, 98], 0⟩).1).length = 2 ∧
    (typeChars (fun _ => c4CharDraws) [97, 98] 0
      (ImperfectionGenerator.init impDisabled 0 0)
      (TypingDynamics.init TimingProfile.humanAdvanced ⟨1000, 1000⟩ 0)
      0).2.2.1 = c4DynAtDelay ∧
    (c4Engine.typeNextChunk sinqOne c4ChunkDraws).1 = 1242 ∧
    calculateDelaySpecSingleOnly c4DynAtDelay sinqOne 2 98 false false false
      c4DelayDraws = 1150 ∧
    (1242 : ℤ) ≠ 1150 := by
  refine ⟨by decide, ?_, ?_, ?_, by decide⟩
  · norm_num [typeChars, ImperfectionGenerator.processCharacter,
      ImperfectionGenerator.init, ImperfectionGenerator.reset, scheduleTypoVal,
      scheduleDoubleVal, impDisabled, intMax, TypingDynamics.updateState,
      TypingDynamics.init, qIsSpace, qIsLetter, qIsUpper, qIsLower, twoPiLit,
      TimingProfile.humanAdvanced, c4CharDraws, c4DynAtDelay]
  · norm_num [TypingEngine.typeNextChunk, c4Engine, TypingEngine.new,
      TypingEngine.setText, TextChunker.hasMore, TextChunker.nextChunk,
      chunkWordLoop, typeChars, ImperfectionGenerator.processCharacter,
      ImperfectionGenerator.init, ImperfectionGenerator.reset, scheduleTypoVal,
      scheduleDoubleVal, impDisabled, intMax, TypingDynamics.updateState,
      TypingDynamics.init, TypingDynamics.shouldBurst, shouldThinkingPause,
      rgRange, TypingDynamics.calculateDelay, digraphFactor, fastDigraphs_val,
      leftHand_val, rightHand_val, qToLower, qIsUpper, qIsSpace, qIsDigit,
      qIsLetter, qIsLower, List.cons_ne_nil, ne_eq, str2codes, sinqOne,
      c4ChunkDraws, c4CharDraws, c4DelayDraws, TimingProfile.humanAdvanced,
      twoPiLit, chunkerPunct, List.getLastD, qBound, ratTrunc]
  · norm_num [calculateDelaySpecSingleOnly, c4DynAtDelay, c4DelayDraws, sinqOne,
      fastDigraphs_val, leftHand_val, rightHand_val, digraphFactor, qToLower,
      qIsUpper, qIsSpace, qIsDigit, qIsLower, TimingProfile.humanAdvanced,
      qBound, ratTrunc]

/-- C7: `KeyboardLayout::getNeighborKey` returns the character unchanged when
its lower-casing does not appear in the 3-row table, and otherwise returns
one of the at most 8 deduplicated adjacent keys, upper-cased exactly when the
input was upper-case. -/
theorem claimC7_neighbor_key (c : ℕ) (draw : ℕ) :
    (findRowCol (qToLower c) = none → getNeighborKey c draw = c) ∧
    (∀ ri ci, findRowCol (qToLower c) = some (ri, ci) →
      (candidatesFor ri ci).Nodup ∧ (candidatesFor ri ci).length ≤ 8 ∧
      getNeighborKey c draw ∈ (candidatesFor ri ci).map
        (fun x => if qIsUpper c then qToUpper x else x)) := by
  constructor
  · exact getNeighborKey_none c draw
  · intro ri ci hp
    refine ⟨candidatesFor_nodup ri ci, candidatesFor_len ri ci, ?_⟩
    have hr := findRowCol_some_range (qToLower c) (ri, ci) hp
    obtain ⟨hfr, hcne, hnm, hrng⟩ := table_neighbor_facts (qToLower c) hr.1 hr.2
    rw [candidatesOf_eq (qToLower c) (ri, ci) hp] at hcne
    obtain ⟨out, hout, hek⟩ := getNeighborKey_some c draw (ri, ci) hp hcne
    rw [hek]
    exact List.mem_map_of_mem _ hout

/-- Witness for C7 at `c = 'q'` (code 113), whose table position is (0,0). -/
theorem claimC7_witness :
    getNeighborKey 113 0 ∈ (candidatesFor 0 0).map
      (fun x => if qIsUpper 113 then qToUpper x else x) :=
  ((claimC7_neighbor_key 113 0).2 0 0 (by decide)).2.2

/-- C5: the chunker cursor never decreases across `nextChunk` calls and never
exceeds the text length; `progressPercent()` is therefore non-decreasing over
successive calls, equals `currentIndex*100/length` rounded down (100 for an
empty text, hence 0 at the start of a non-empty text), and reaches 100
exactly when `hasMore()` becomes false. -/
theorem claimC5_progress_monotone :
    (∀ tc : TextChunker, tc.currentIndex ≤ tc.text.length →
      tc.currentIndex ≤ (tc.nextChunk).2.currentIndex ∧
      (tc.nextChunk).2.currentIndex ≤ tc.text.length ∧
      tc.progressPercent ≤ (tc.nextChunk).2.progressPercent ∧
      (tc.progressPercent = 100 ↔ tc.hasMore = false)) ∧
    (∀ text : List ℕ,
      (TextChunker.mk text 0).progressPercent = if text.length = 0 then 100 else 0) := by
  constructor
  · intro tc h
    have hab := nextChunk_index_le tc
    have hbl := nextChunk_index_le_len tc h
    have htx := nextChunk_text tc
    refine ⟨hab, hbl, ?_, ?_⟩
    · simp only [TextChunker.progressPercent, htx]
      by_cases hlen : tc.text.length = 0
      · simp [hlen]
      · simp only [hlen, if_false]
        exact Nat.div_le_div_right (Nat.mul_le_mul_right 100 hab)
    · simp only [TextChunker.progressPercent, TextChunker.hasMore,
        decide_eq_false_iff_not, not_lt]
      by_cases hlen : tc.text.length = 0
      · simp [hlen]
      · simp only [hlen, if_false]
        constructor
        · intro hp
          have h100 : 100 ≤ tc.currentIndex * 100 / tc.text.length := by omega
          have := (Nat.le_div_iff_mul_le (by omega)).mp h100
          omega
        · intro hle
          have hix : tc.currentIndex = tc.text.length := by omega
          rw [hix, Nat.mul_div_cancel_left _ (by omega)]
  · intro text
    by_cases hlen : text.length = 0
    · simp [TextChunker.progressPercent, hlen]
    · simp [TextChunker.progressPercent, hlen]

/-- Witness for C5 on the one-character text `"a"`. -/
theorem claimC5_witness :
    (⟨[97], 0⟩ : TextChunker).progressPercent = 100 ↔
      (⟨[97], 0⟩ : TextChunker).hasMore = false :=
  (claimC5_progress_monotone.1 ⟨[97], 0⟩ (by decide)).2.2.2

theorem updSeq_below_50 (p : TimingProfile) (dl : DelayRange) (u : ℚ)
    (cs : ℕ → ℕ) (ws : ℕ → Bool) :
    ∀ n, n ≤ 50 → (updSeq p dl u cs ws n).totalCharsTyped = n ∧
      (updSeq p dl u cs ws n).fatigueFactor = if n = 50 then 81/80 else 1 := by
  intro n
  induction n with
  | zero => intro _; exact ⟨rfl, rfl⟩
  | succ n ih =>
    intro hn
    have hih := ih (by omega)
    simp only [updSeq, TypingDynamics.updateState]
    refine ⟨by rw [hih.1], ?_⟩
    rw [hih.1, hih.2]
    by_cases h50 : n + 1 = 50
    · rw [h50]
      norm_num
    · have hmod : ¬ (n + 1) % 50 = 0 := by omega
      have hne : ¬ n = 50 := by omega
      simp [hmod, h50, hne]

/-- C8: after exactly 50 `updateState` calls from a fresh state the fatigue
factor equals `1 + 0.25*min(1, 50/1000) = 1.0125 = 81/80`; in general the
factor is recomputed as `1 + 0.25*min(1, totalChars/1000)` exactly when the
incremented character count is a multiple of 50 and is unchanged otherwise. -/
theorem claimC8_fatigue_after_50 (p : TimingProfile) (dl : DelayRange) (u : ℚ)
    (cs : ℕ → ℕ) (ws : ℕ → Bool) :
    (updSeq p dl u cs ws 50).fatigueFactor = 81/80 ∧
    (∀ (s : TypingDynamics) (c : ℕ) (w : Bool),
      ((s.totalCharsTyped + 1) % 50 = 0 →
        (s.updateState c w).fatigueFactor =
          1 + (25/100) * min 1 (((s.totalCharsTyped + 1 : ℕ) : ℚ) / 1000)) ∧
      ((s.totalCharsTyped + 1) % 50 ≠ 0 →
        (s.updateState c w).fatigueFactor = s.fatigueFactor)) := by
  constructor
  · have h := updSeq_below_50 p dl u cs ws 50 (by omega)
    simpa using h.2
  · intro s c w
    constructor
    · intro hmod
      simp [TypingDynamics.updateState, hmod]
    · intro hmod
      simp [TypingDynamics.updateState, hmod]

/-- Witness for C8's in-between clause: one `updateState` step from a fresh
state leaves the fatigue factor unchanged (1 % 50 ≠ 0). -/
theorem claimC8_witness :
    ((TypingDynamics.init TimingProfile.humanAdvanced ⟨80, 180⟩ 0).updateState
        97 false).fatigueFactor =
      (TypingDynamics.init TimingProfile.humanAdvanced ⟨80, 180⟩ 0).fatigueFactor :=
  ((claimC8_fatigue_after_50 TimingProfile.humanAdvanced ⟨80, 180⟩ 0
      (fun _ => 97) (fun _ => false)).2
    (TypingDynamics.init TimingProfile.humanAdvanced ⟨80, 180⟩ 0) 97 false).2
    (by decide)

/-- C3: `ImperfectionGenerator::processCharacter` substitutes a neighbor-key
typo only for alphabetic characters (any non-letter passes through
unchanged), and sets `shouldDouble` only for non-whitespace characters. -/
theorem claimC3_typo_and_double_domains (g : ImperfectionGenerator)
    (original : ℕ) (d : ImpDraws) :
    ((g.processCharacter original d).1.character ≠ original →
      qIsLetter original = true) ∧
    ((g.processCharacter original d).1.shouldDouble = true →
      qIsSpace original = false) := by
  by_cases h1 : g.charsSinceLastTypo + 1 ≥ g.nextTypoAt ∧ qIsLetter original = true
  · constructor
    · exact fun _ => h1.2
    · intro hd
      by_cases hs : qIsSpace original = true
      · exfalso
        revert hd
        simp [ImperfectionGenerator.processCharacter, h1, hs]
      · simpa using hs
  · constructor
    · intro hne
      exfalso
      apply hne
      simp only [ImperfectionGenerator.processCharacter]
      split
      · next hcond => exact absurd hcond h1
      · split <;> rfl
    · intro hd
      by_cases hs : qIsSpace original = true
      · exfalso
        revert hd
        simp [ImperfectionGenerator.processCharacter, h1, hs]
      · simpa using hs

/-- Witness for C3 with a forced typo and a forced double on the letter
`'a'` (thresholds at 1, fresh generator). -/
theorem claimC3_witness : qIsLetter 97 = true ∧ qIsSpace 97 = false :=
  ⟨(claimC3_typo_and_double_domains
      (ImperfectionGenerator.init ⟨true, 1, 1, true, 1, 1, false, 15⟩ 0 0)
      97 ⟨0, 0, 0, 0⟩).1 (by decide),
   (claimC3_typo_and_double_domains
      (ImperfectionGenerator.init ⟨true, 1, 1, true, 1, 1, false, 15⟩ 0 0)
      97 ⟨0, 0, 0, 0⟩).2 (by decide)⟩

theorem processCharacter_typo_fields (g : ImperfectionGenerator) (c : ℕ)
    (d : ImpDraws) :
    ((g.charsSinceLastTypo + 1 ≥ g.nextTypoAt ∧ qIsLetter c = true) →
      (g.processCharacter c d).1.character = getNeighborKey c d.neighborDraw ∧
      (g.processCharacter c d).2.charsSinceLastTypo = 0 ∧
      (g.processCharacter c d).2.nextTypoAt =
        scheduleTypoVal g.settings d.typoSchedDraw ∧
      (g.processCharacter c d).2.settings = g.settings) ∧
    (¬(g.charsSinceLastTypo + 1 ≥ g.nextTypoAt ∧ qIsLetter c = true) →
      (g.processCharacter c d).1.character = c ∧
      (g.processCharacter c d).2.charsSinceLastTypo = g.charsSinceLastTypo + 1 ∧
      (g.processCharacter c d).2.nextTypoAt = g.nextTypoAt ∧
      (g.processCharacter c d).2.settings = g.settings) := by
  constructor
  · intro h1
    simp only [ImperfectionGenerator.processCharacter]
    split
    · split <;> exact ⟨rfl, rfl, rfl, rfl⟩
    · next hcond => exact absurd h1 hcond
  · intro h1
    simp only [ImperfectionGenerator.processCharacter]
    split
    · next hcond => exact absurd hcond h1
    · split <;> exact ⟨rfl, rfl, rfl, rfl⟩

theorem processAll_typo_pattern (st : ImperfectionSettings)
    (hT : st.enableTypos = true) (hmin : st.typoMin = 5) (hmax : st.typoMax = 5) :
    ∀ (cs : List ℕ) (g : ImperfectionGenerator), g.settings = st →
      g.nextTypoAt = 5 → ∀ k : ℕ, g.charsSinceLastTypo = ((k % 5 : ℕ) : ℤ) →
      (∀ c ∈ cs, qIsLetter c = true) → ∀ (ds : ℕ → ImpDraws) (i0 i : ℕ),
      i < cs.length →
      (((processAll g cs ds i0).1.getD i ⟨0, false, false⟩).character ≠
          cs.getD i 0 ↔ (k + i + 1) % 5 = 0) := by
  intro cs
  induction cs with
  | nil =>
    intro g hset hnext k hk hcs ds i0 i hi
    simp at hi
  | cons c rest ih =>
    intro g hset hnext k hk hcs ds i0 i hi
    have hcl : qIsLetter c = true := hcs c (List.mem_cons_self c rest)
    have hfields := processCharacter_typo_fields g c (ds i0)
    by_cases hfire : g.charsSinceLastTypo + 1 ≥ g.nextTypoAt ∧ qIsLetter c = true
    · obtain ⟨hchar, hcnt, hnxt, hst⟩ := hfields.1 hfire
      have hk4 : (k + 1) % 5 = 0 := by
        have h1 := hfire.1
        rw [hk, hnext] at h1
        omega
      cases i with
      | zero =>
        simp only [processAll, List.getD_cons_zero]
        constructor
        · intro _
          simpa using hk4
        · intro _
          rw [hchar]
          exact getNeighborKey_ne c (ds i0).neighborDraw hcl
      | succ j =>
        simp only [processAll, List.getD_cons_succ]
        have hrec := ih (g.processCharacter c (ds i0)).2 (hst.trans hset)
          (by rw [hnxt, hset]
              simp [scheduleTypoVal, hT, hmin, hmax, rgRange_same])
          (k + 1) (by rw [hcnt]; omega)
          (fun x hx => hcs x (List.mem_cons_of_mem c hx)) ds (i0 + 1) j
          (by simpa using hi)
        have harith : k + 1 + j + 1 = k + (j + 1) + 1 := by omega
        rw [harith] at hrec
        exact hrec
    · obtain ⟨hchar, hcnt, hnxt, hst⟩ := hfields.2 hfire
      have hlt : ¬(((k % 5 : ℕ) : ℤ) + 1 ≥ 5) := by
        intro hge
        rw [hk, hnext] at hfire
        exact hfire ⟨hge, hcl⟩
      have hk4 : (k + 1) % 5 = k % 5 + 1 := by omega
      cases i with
      | zero =>
        simp only [processAll, List.getD_cons_zero]
        rw [hchar]
        simp only [ne_eq, not_true_eq_false, false_iff]
        omega
      | succ j =>
        simp only [processAll, List.getD_cons_succ]
        have hrec := ih (g.processCharacter c (ds i0)).2 (hst.trans hset)
          (by rw [hnxt, hnext])
          (k + 1) (by rw [hcnt, hk]; omega)
          (fun x hx => hcs x (List.mem_cons_of_mem c hx)) ds (i0 + 1) j
          (by simpa using hi)
        have harith : k + 1 + j + 1 = k + (j + 1) + 1 := by omega
        rw [harith] at hrec
        exact hrec

/-- C6: with `typoMin = typoMax = 5`, typos enabled, and an input consisting
only of (ASCII) letters, `processCharacter` injects a typo (a character
different from the original) exactly on the 5th, 10th, 15th, ... character
processed, for every random draw — the schedule is by position. -/
theorem claimC6_typo_every_fifth (st : ImperfectionSettings)
    (hT : st.enableTypos = true) (hmin : st.typoMin = 5) (hmax : st.typoMax = 5)
    (cs : List ℕ) (hcs : ∀ c ∈ cs, qIsLetter c = true) (d1 d2 : ℕ)
    (ds : ℕ → ImpDraws) (i : ℕ) (hi : i < cs.length) :
    ((processAll (ImperfectionGenerator.init st d1 d2) cs ds 0).1.getD i
        ⟨0, false, false⟩).character ≠ cs.getD i 0 ↔ (i + 1) % 5 = 0 := by
  have h := processAll_typo_pattern st hT hmin hmax cs
    (ImperfectionGenerator.init st d1 d2) rfl
    (by simp [ImperfectionGenerator.init, ImperfectionGenerator.reset,
          scheduleTypoVal, hT, hmin, hmax, rgRange_same])
    0 (by simp [ImperfectionGenerator.init, ImperfectionGenerator.reset])
    hcs ds 0 i hi
  simpa using h

/-- Witness for C6 on the five-letter word `"hello"`: the 5th character is
replaced by a typo. -/
theorem claimC6_witness :
    ((processAll
        (ImperfectionGenerator.init ⟨true, 5, 5, true, 250, 400, true, 15⟩ 0 0)
        [104, 101, 108, 108, 111] (fun _ => ⟨0, 0, 0, 0⟩) 0).1.getD 4
        ⟨0, false, false⟩).character ≠ [104, 101, 108, 108, 111].getD 4 0 :=
  (claimC6_typo_every_fifth ⟨true, 5, 5, true, 250, 400, true, 15⟩ rfl rfl rfl
    [104, 101, 108, 108, 111] (by decide) 0 0 (fun _ => ⟨0, 0, 0, 0⟩) 4
    (by decide)).mpr (by decide)
